import Mathlib

/-!
# Verification of the YouTube metadata view tracker (`src/main.py`)

Shallow embedding of the pure core of the tracker:

* `save_videos_csv`     — the catalog store writer (append, dedup against file),
* `fetch_current_views` — the metric fetcher (chunked lookups of ≤ 50 ids),
* `update_allvideoviews`— the delta reconciler (per-item clamped deltas folded
  into a dict and a cumulative total, both persisted).

File access is modelled by explicit `FileState` values; the external YouTube
API is a function parameter; `datetime.now()` is a string parameter.  Python's
`str`/`int` conversions used for the `sumtotal.txt` file are modelled by
`pyStr`/`pyInt?` below, with the round-trip proved.  Loops whose iteration
count shrinks a list by 50 (or a number by a factor of 10) are written with a
structural fuel argument so that every definition computes by kernel
reduction; the fuel-independence lemmas below show the fuel never runs out.
-/

namespace YtMeta

/-- The decimal digit character for `d < 10`, as Python's `str` produces it. -/
def digitChar (d : Nat) : Char :=
  match d with
  | 0 => '0' | 1 => '1' | 2 => '2' | 3 => '3' | 4 => '4'
  | 5 => '5' | 6 => '6' | 7 => '7' | 8 => '8' | _ => '9'

/-- Decimal digits of `n`, least significant first, with fuel. -/
def natDigitsRevAux : Nat → Nat → List Char
  | 0, _ => []
  | fuel + 1, n =>
    if n < 10 then [digitChar n]
    else digitChar (n % 10) :: natDigitsRevAux fuel (n / 10)

/-- Decimal digits of `n`, least significant first.  Models the digit
sequence of Python's `str` applied to a non-negative integer. -/
def natDigitsRev (n : Nat) : List Char :=
  natDigitsRevAux (n + 1) n

/-- Models Python's `str` on a non-negative integer. -/
def pyStrNat (n : Nat) : String :=
  String.mk (natDigitsRev n).reverse

/-- Models Python's `str` on an `int`: sign followed by decimal digits. -/
def pyStr (i : Int) : String :=
  if i < 0 then String.mk ('-' :: (natDigitsRev i.natAbs).reverse)
  else pyStrNat i.natAbs

/-- Decode a most-significant-first digit string, as Python's `int` does. -/
def decodeDigits (l : List Char) : Nat :=
  l.foldl (fun n c => 10 * n + (c.toNat - 48)) 0

/-- Parse a non-empty all-digit character list; `none` otherwise. -/
def parseDigits? (l : List Char) : Option Nat :=
  if l.isEmpty then none
  else if l.all Char.isDigit then some (decodeDigits l)
  else none

/-- Strip leading and trailing whitespace, as Python's `str.strip`. -/
def trimChars (l : List Char) : List Char :=
  ((l.dropWhile Char.isWhitespace).reverse.dropWhile Char.isWhitespace).reverse

/-- Optional sign followed by decimal digits, on a stripped character list. -/
def pyIntAux (l : List Char) : Option Int :=
  match l with
  | [] => none
  | c :: rest =>
    if c = '-' then (parseDigits? rest).map (fun n : Nat => -(n : Int))
    else if c = '+' then (parseDigits? rest).map (fun n : Nat => (n : Int))
    else (parseDigits? (c :: rest)).map (fun n : Nat => (n : Int))

/-- Models Python's `int(s)` on a string (without underscore separators):
strip whitespace, optional sign, decimal digits; `none` when `int` would
raise `ValueError`. -/
def pyInt? (s : String) : Option Int :=
  pyIntAux (trimChars s.data)

/-- One row of `allvideoviews.csv` (`video_id,last_views,last_checked`).
The numeric cell is kept as the integer it round-trips through `str`/`int`. -/
structure ViewRow where
  video_id : String
  last_views : Int
  last_checked : String
deriving DecidableEq

/-- The value part of the `existing` dict in `update_allvideoviews`. -/
structure ViewEntry where
  last_views : Int
  last_checked : String
deriving DecidableEq

/-- The `existing` dict: insertion-ordered association list with the key
semantics of a Python `dict` (unique keys; updates keep position, new keys
are appended). -/
abbrev ViewMap := List (String × ViewEntry)

/-- `d[k] = v` on a Python dict: replace in place if the key is present,
append otherwise. -/
def dictInsert : ViewMap → String → ViewEntry → ViewMap
  | [], k, v => [(k, v)]
  | p :: rest, k, v =>
    if p.1 = k then (k, v) :: rest else p :: dictInsert rest k v

/-- `k in d` / `d[k]` lookup on the dict. -/
def dictGet? (m : ViewMap) (k : String) : Option ViewEntry :=
  (m.find? (fun p => p.1 == k)).map Prod.snd

/-- One element of `api_callout`: a `{video_id, current_views}` pair as built
by `fetch_current_views`. -/
structure Measurement where
  video_id : String
  current_views : Int
deriving DecidableEq

/-- The reconciler's loop state: the `existing` dict and the two running
totals `total_new_views` and `cumulative_total`. -/
structure RunState where
  existing : ViewMap
  total_new_views : Int
  cumulative_total : Int
deriving DecidableEq

/-- The per-item delta of `update_allvideoviews`:
`max(0, current_views - existing[vid]["last_views"])` when the id is in the
dict, else all current views count as new. -/
def deltaFor (m : ViewMap) (v : Measurement) : Int :=
  match dictGet? m v.video_id with
  | some e => max 0 (v.current_views - e.last_views)
  | none => v.current_views

/-- The body of the `for video in api_callout` loop of `update_allvideoviews`. -/
def processVideo (now : String) (st : RunState) (v : Measurement) : RunState :=
  { existing := dictInsert st.existing v.video_id ⟨v.current_views, now⟩
    total_new_views := st.total_new_views + deltaFor st.existing v
    cumulative_total := st.cumulative_total + deltaFor st.existing v }

/-- The whole `for video in api_callout` loop. -/
def runBatch (now : String) (st : RunState) (api_callout : List Measurement) : RunState :=
  api_callout.foldl (processVideo now) st

/-- The two persisted files the reconciler touches: `allvideoviews.csv`
(as parsed rows; `none` when the file does not exist) and `sumtotal.txt`
(raw text content; `none` when the file does not exist). -/
structure FileState where
  allviews : Option (List ViewRow)
  sumtotal : Option String
deriving DecidableEq

/-- Loading `allvideoviews.csv` into the `existing` dict: later rows with
the same id overwrite earlier ones, as in the Python `for row in reader`
loop. -/
def loadViewRecords (rows : List ViewRow) : ViewMap :=
  rows.foldl (fun m r => dictInsert m r.video_id ⟨r.last_views, r.last_checked⟩) []

/-- Loading `sumtotal.txt`: missing file or `ValueError` from `int` give 0. -/
def loadCumulativeTotal (file : Option String) : Int :=
  match file with
  | none => 0
  | some s =>
    match pyInt? s with
    | some n => n
    | none => 0

/-- Serialising the `existing` dict back to `allvideoviews.csv` rows
(`for vid, data in existing.items(): writer.writerow(...)`). -/
def writeViewRows (m : ViewMap) : List ViewRow :=
  m.map (fun p => ⟨p.1, p.2.last_views, p.2.last_checked⟩)

/-- `update_allvideoviews(api_callout)` from `src/main.py`: load the dict and
the cumulative total, fold the batch, rewrite both files.  Returns the new
file state together with `total_new_views` and `cumulative_total`. -/
def update_allvideoviews (now : String) (fs : FileState) (api_callout : List Measurement) :
    FileState × Int × Int :=
  let existing := loadViewRecords (fs.allviews.getD [])
  let cumulative_total := loadCumulativeTotal fs.sumtotal
  let st := runBatch now ⟨existing, 0, cumulative_total⟩ api_callout
  (⟨some (writeViewRows st.existing), some (pyStr st.cumulative_total)⟩,
    st.total_new_views, st.cumulative_total)

/-- Repeated runs of the reconciler: each element of the sequence is the
timestamp and the fetch batch of one run. -/
def runsFrom (fs : FileState) : List (String × List Measurement) → FileState
  | [] => fs
  | (now, b) :: rest => runsFrom (update_allvideoviews now fs b).1 rest

/-- One row of `videos.csv` (`video_id,title,published_at`). -/
structure CatRow where
  video_id : String
  title : String
  published_at : String
deriving DecidableEq

/-- `save_videos_csv(videos)` from `src/main.py`: read the existing ids
(empty when the file does not exist), then append every discovered video
whose id is not among them.  Returns the rows of the rewritten file. -/
def save_videos_csv (file : Option (List CatRow)) (videos : List CatRow) : List CatRow :=
  let existing_ids := (file.getD []).map CatRow.video_id
  (file.getD []) ++ videos.filter (fun v => !(existing_ids.contains v.video_id))

/-- The catalog file after a sequence of `save_videos_csv` calls, starting
from a given file state (`none` = file absent). -/
def catalogAfter : Option (List CatRow) → List (List CatRow) → List CatRow
  | fs, [] => fs.getD []
  | fs, b :: bs => catalogAfter (some (save_videos_csv fs b)) bs

/-- One item of a `videos().list` statistics response:
`item["id"]` and the optional `item["statistics"]["viewCount"]`
(`statistics.get("viewCount", 0)` defaults a missing field to 0). -/
structure ApiVideoItem where
  id : String
  viewCount : Option Int
deriving DecidableEq

/-- One `{video_id, current_views}` element built from a response item. -/
def statOf (it : ApiVideoItem) : Measurement :=
  ⟨it.id, it.viewCount.getD 0⟩

/-- The `for i in range(0, len(video_ids), 50)` loop of
`fetch_current_views`, with fuel bounding the number of slices. -/
def fetchAux (api : List String → List ApiVideoItem) : Nat → List String → List Measurement
  | _, [] => []
  | 0, _ :: _ => []
  | fuel + 1, x :: rest =>
    ((api ((x :: rest).take 50)).map statOf) ++
      fetchAux api fuel ((x :: rest).drop 50)

/-- `fetch_current_views(video_ids)` from `src/main.py`: slice
`video_ids[i:i+50]` per request and concatenate the mapped responses.  The
upstream API is the function parameter `api`. -/
def fetch_current_views (api : List String → List ApiVideoItem)
    (video_ids : List String) : List Measurement :=
  fetchAux api video_ids.length video_ids

/-- Modelled from the spec: the partition of a list into consecutive chunks
of at most 50, with fuel. -/
def chunks50Aux : Nat → List String → List (List String)
  | _, [] => []
  | 0, _ :: _ => []
  | fuel + 1, x :: rest => (x :: rest).take 50 :: chunks50Aux fuel ((x :: rest).drop 50)

/-- Modelled from the spec: the partition of the identifier list into
consecutive chunks of at most 50, used to compare with the source's slicing
loop. -/
def chunks50 (ids : List String) : List (List String) :=
  chunks50Aux ids.length ids

/-- The spec-side mapping of one chunk's response to `{id, current_views}`
pairs, in upstream response order, defaulting a missing count to 0. -/
def chunkStats (api : List String → List ApiVideoItem) (c : List String) :
    List Measurement :=
  (api c).map statOf

/-- The keys of the dict, in insertion order. -/
def dictKeys (m : ViewMap) : List String :=
  m.map Prod.fst

/-- Modelled from the spec (§8, first testable property): the record of
previously observed counts, id → views. -/
def specRecord : List (String × Int) → String → Int → List (String × Int)
  | [], id, n => [(id, n)]
  | p :: rest, id, n => if p.1 = id then (id, n) :: rest else p :: specRecord rest id n

/-- Modelled from the spec: look up the previously recorded views of an id. -/
def specLookup (r : List (String × Int)) (id : String) : Option Int :=
  (r.find? (fun p => p.1 == id)).map Prod.snd

/-- Modelled from the spec: `max(0, current − previous)`, first observation
counted in full. -/
def specDelta (r : List (String × Int)) (v : Measurement) : Int :=
  match specLookup r v.video_id with
  | some prev => max 0 (v.current_views - prev)
  | none => v.current_views

/-- Modelled from the spec: fold one measurement into the record and the
running sum of deltas. -/
def specStep (st : List (String × Int) × Int) (v : Measurement) :
    List (String × Int) × Int :=
  (specRecord st.1 v.video_id v.current_views, st.2 + specDelta st.1 v)

/-- Modelled from the spec: "cumulative total after N runs equals the sum of
all per-item max(0, current−previous) deltas across all runs, seeded at 0". -/
def specCumulative (batches : List (List Measurement)) : Int :=
  (batches.foldl (fun st b => b.foldl specStep st) ([], 0)).2

/-!  ## Theorems -/

theorem digitChar_spec : ∀ d < 10, (digitChar d).isDigit = true ∧
    (digitChar d).toNat - 48 = d ∧ digitChar d ≠ '-' ∧ digitChar d ≠ '+' ∧
    (digitChar d).isWhitespace = false := by decide

theorem natDigitsRevAux_irrel : ∀ n fuel fuel', n < fuel → n < fuel' →
    natDigitsRevAux fuel n = natDigitsRevAux fuel' n := by
  intro n
  induction n using Nat.strong_induction_on with
  | _ n ih =>
    intro fuel fuel' h h'
    match fuel, fuel' with
    | f + 1, f' + 1 =>
      simp only [natDigitsRevAux]
      split
      · rfl
      · next hn =>
        have hdiv : n / 10 < n := Nat.div_lt_self (by omega) (by omega)
        rw [ih (n / 10) hdiv f f' (by omega) (by omega)]

/-- Unfolding equation for `natDigitsRev`: the fuel never runs out. -/
theorem natDigitsRev_eq (n : Nat) : natDigitsRev n =
    (if n < 10 then [digitChar n]
    else digitChar (n % 10) :: natDigitsRev (n / 10)) := by
  rw [natDigitsRev, natDigitsRevAux]
  split
  · rfl
  · next hn =>
    have hdiv : n / 10 < n := Nat.div_lt_self (by omega) (by omega)
    rw [natDigitsRevAux_irrel (n / 10) n (n / 10 + 1) hdiv (by omega)]
    rfl

theorem mem_natDigitsRev (n : Nat) : ∀ c ∈ natDigitsRev n, ∃ d < 10, c = digitChar d := by
  induction n using Nat.strong_induction_on with
  | _ n ih =>
    rw [natDigitsRev_eq]
    split
    · intro c hc
      simp only [List.mem_singleton] at hc
      exact ⟨n, by omega, hc⟩
    · intro c hc
      rcases List.mem_cons.mp hc with h | h
      · exact ⟨n % 10, Nat.mod_lt _ (by omega), h⟩
      · exact ih (n / 10) (Nat.div_lt_self (by omega) (by omega)) c h

theorem natDigitsRev_ne_nil (n : Nat) : natDigitsRev n ≠ [] := by
  rw [natDigitsRev_eq]
  split <;> simp

theorem decodeDigits_append (l : List Char) (c : Char) :
    decodeDigits (l ++ [c]) = 10 * decodeDigits l + (c.toNat - 48) := by
  simp [decodeDigits, List.foldl_append]

theorem decode_natDigitsRev (n : Nat) :
    decodeDigits (natDigitsRev n).reverse = n := by
  induction n using Nat.strong_induction_on with
  | _ n ih =>
    rw [natDigitsRev_eq]
    split
    · next h =>
      simp [decodeDigits, (digitChar_spec n h).2.1]
    · next h =>
      rw [List.reverse_cons, decodeDigits_append,
        ih (n / 10) (Nat.div_lt_self (by omega) (by omega)),
        (digitChar_spec (n % 10) (Nat.mod_lt _ (by omega))).2.1]
      omega

theorem parseDigits?_natDigitsRev (n : Nat) :
    parseDigits? (natDigitsRev n).reverse = some n := by
  have hne : (natDigitsRev n).reverse ≠ [] := by
    simp [natDigitsRev_ne_nil n]
  have hdig : ((natDigitsRev n).reverse.all Char.isDigit) = true := by
    rw [List.all_eq_true]
    intro c hc
    rw [List.mem_reverse] at hc
    obtain ⟨d, hd, rfl⟩ := mem_natDigitsRev n c hc
    exact (digitChar_spec d hd).1
  rw [parseDigits?]
  simp only [List.isEmpty_iff, hne, if_false, hdig, if_true]
  rw [decode_natDigitsRev]

theorem trimChars_of_no_ws (l : List Char) (h : ∀ c ∈ l, c.isWhitespace = false) :
    trimChars l = l := by
  have h1 : l.dropWhile Char.isWhitespace = l := by
    cases l with
    | nil => rfl
    | cons c cs =>
      rw [List.dropWhile_cons_of_neg]
      simp [h c (List.mem_cons_self c cs)]
  have h2 : l.reverse.dropWhile Char.isWhitespace = l.reverse := by
    cases hrev : l.reverse with
    | nil => rfl
    | cons c cs =>
      rw [List.dropWhile_cons_of_neg]
      have : c ∈ l := by
        rw [← List.mem_reverse, hrev]; exact List.mem_cons_self c cs
      simp [h c this]
  rw [trimChars, h1, h2, List.reverse_reverse]

theorem no_ws_natDigitsRev (n : Nat) :
    ∀ c ∈ (natDigitsRev n).reverse, c.isWhitespace = false := by
  intro c hc
  rw [List.mem_reverse] at hc
  obtain ⟨d, hd, rfl⟩ := mem_natDigitsRev n c hc
  exact (digitChar_spec d hd).2.2.2.2

theorem pyIntAux_cons (c : Char) (rest : List Char) :
    pyIntAux (c :: rest) =
      (if c = '-' then (parseDigits? rest).map (fun n : Nat => -(n : Int))
      else if c = '+' then (parseDigits? rest).map (fun n : Nat => (n : Int))
      else (parseDigits? (c :: rest)).map (fun n : Nat => (n : Int))) := rfl

/-- Python round trip: `int(str(i)) = i`. -/
theorem pyInt?_pyStr (i : Int) : pyInt? (pyStr i) = some i := by
  rcases lt_or_ge i 0 with hneg | hpos
  · rw [pyStr, if_pos hneg, pyInt?]
    have hdata : (String.mk ('-' :: (natDigitsRev i.natAbs).reverse)).data =
        '-' :: (natDigitsRev i.natAbs).reverse := rfl
    rw [hdata, trimChars_of_no_ws, pyIntAux_cons]
    · rw [if_pos rfl, parseDigits?_natDigitsRev]
      simp only [Option.map_some', Option.some.injEq]
      have habs : ((i.natAbs : Int)) = -i := Int.ofNat_natAbs_of_nonpos (le_of_lt hneg)
      rw [habs, neg_neg]
    · intro c hc
      rcases List.mem_cons.mp hc with rfl | h
      · decide
      · exact no_ws_natDigitsRev i.natAbs c h
  · rw [pyStr, if_neg (by omega), pyStrNat, pyInt?]
    have hdata : (String.mk (natDigitsRev i.natAbs).reverse).data =
        (natDigitsRev i.natAbs).reverse := rfl
    rw [hdata, trimChars_of_no_ws _ (no_ws_natDigitsRev i.natAbs)]
    cases hrev : (natDigitsRev i.natAbs).reverse with
    | nil => exact absurd (by simpa using hrev) (natDigitsRev_ne_nil i.natAbs)
    | cons c rest =>
      have hcmem : c ∈ natDigitsRev i.natAbs := by
        rw [← List.mem_reverse, hrev]; exact List.mem_cons_self c rest
      obtain ⟨d, hd, rfl⟩ := mem_natDigitsRev _ c hcmem
      rw [pyIntAux_cons, if_neg (digitChar_spec d hd).2.2.1,
        if_neg (digitChar_spec d hd).2.2.2.1, ← hrev, parseDigits?_natDigitsRev]
      simp only [Option.map_some', Option.some.injEq]
      exact Int.natAbs_of_nonneg hpos

/-- Loading the value the reconciler wrote gives it back. -/
theorem loadCumulativeTotal_pyStr (i : Int) :
    loadCumulativeTotal (some (pyStr i)) = i := by
  rw [loadCumulativeTotal, pyInt?_pyStr i]

theorem dictGet?_insert_self (m : ViewMap) (k : String) (v : ViewEntry) :
    dictGet? (dictInsert m k v) k = some v := by
  induction m with
  | nil => simp [dictInsert, dictGet?, List.find?]
  | cons p rest ih =>
    rw [dictInsert]
    split
    · simp [dictGet?, List.find?]
    · next hne =>
      rw [dictGet?, List.find?]
      have : (p.1 == k) = false := by simp [hne]
      rw [this]
      exact ih

theorem dictGet?_insert_ne (m : ViewMap) (k k' : String) (v : ViewEntry)
    (hne : k' ≠ k) : dictGet? (dictInsert m k v) k' = dictGet? m k' := by
  induction m with
  | nil =>
    simp only [dictInsert, dictGet?, List.find?]
    have : (k == k') = false := by simp [Ne.symm hne]
    simp [this]
  | cons p rest ih =>
    rw [dictInsert]
    split
    · next heq =>
      simp only [dictGet?, List.find?]
      have h1 : (k == k') = false := by simp [Ne.symm hne]
      have h2 : (p.1 == k') = false := by simp [heq, Ne.symm hne]
      rw [h1, h2]
    · next hne2 =>
      simp only [dictGet?, List.find?]
      cases hpk : (p.1 == k') with
      | true => rfl
      | false => exact ih

theorem dictKeys_cons (p : String × ViewEntry) (l : ViewMap) :
    dictKeys (p :: l) = p.1 :: dictKeys l := rfl

theorem dictKeys_insert (m : ViewMap) (k : String) (v : ViewEntry) :
    dictKeys (dictInsert m k v) =
      (if k ∈ dictKeys m then dictKeys m else dictKeys m ++ [k]) := by
  induction m with
  | nil => simp [dictInsert, dictKeys]
  | cons p rest ih =>
    rw [dictInsert]
    split
    · next heq =>
      have hk : k ∈ dictKeys (p :: rest) := by
        rw [dictKeys_cons, heq]
        exact List.mem_cons_self k _
      rw [if_pos hk, dictKeys_cons, dictKeys_cons, heq]
    · next hne =>
      rw [dictKeys_cons, ih]
      by_cases hk : k ∈ dictKeys rest
      · have hmem : k ∈ dictKeys (p :: rest) := by
          rw [dictKeys_cons]
          exact List.mem_cons_of_mem _ hk
        rw [if_pos hk, if_pos hmem, dictKeys_cons]
      · have hnotmem : k ∉ dictKeys (p :: rest) := by
          rw [dictKeys_cons]
          simp only [List.mem_cons, not_or]
          exact ⟨fun h => hne h.symm, hk⟩
        rw [if_neg hk, if_neg hnotmem, dictKeys_cons]
        rfl

theorem dictKeys_insert_nodup (m : ViewMap) (k : String) (v : ViewEntry)
    (h : (dictKeys m).Nodup) : (dictKeys (dictInsert m k v)).Nodup := by
  rw [dictKeys_insert]
  split
  · exact h
  · next hk =>
    simp [List.nodup_append, h, hk]

theorem dictGet?_eq_none_iff (m : ViewMap) (k : String) :
    dictGet? m k = none ↔ k ∉ dictKeys m := by
  rw [dictGet?, Option.map_eq_none', List.find?_eq_none, dictKeys]
  constructor
  · intro h hmem
    obtain ⟨p, hp, hpk⟩ := List.mem_map.mp hmem
    exact (by simpa [hpk] using h p hp)
  · intro h p hp hbeq
    exact h (List.mem_map.mpr ⟨p, hp, by simpa using hbeq⟩)

theorem mem_of_dictGet?_eq_some (m : ViewMap) (k : String) (e : ViewEntry)
    (h : dictGet? m k = some e) : (k, e) ∈ m := by
  rw [dictGet?] at h
  obtain ⟨p, hfind, rfl⟩ := Option.map_eq_some'.mp h
  have hmem := List.mem_of_find?_eq_some hfind
  have hkey : p.1 = k := by simpa using List.find?_some hfind
  have : p = (k, p.2) := by
    rw [← hkey]
  rw [← this]
  exact hmem

theorem dictInsert_of_not_mem (m : ViewMap) (k : String) (v : ViewEntry)
    (h : k ∉ dictKeys m) : dictInsert m k v = m ++ [(k, v)] := by
  induction m with
  | nil => rfl
  | cons p rest ih =>
    have hne : p.1 ≠ k := by
      intro hx
      exact h (by simp [dictKeys, hx])
    rw [dictInsert, if_neg hne, ih (fun hx => h (by simp [dictKeys] at hx ⊢; right; exact hx))]
    rfl

theorem runBatch_append (now : String) (st : RunState) (b1 b2 : List Measurement) :
    runBatch now st (b1 ++ b2) = runBatch now (runBatch now st b1) b2 := by
  simp [runBatch, List.foldl_append]

theorem runBatch_cons (now : String) (st : RunState) (v : Measurement)
    (b : List Measurement) :
    runBatch now st (v :: b) = runBatch now (processVideo now st v) b := rfl

theorem runBatch_existing_irrel (now : String) :
    ∀ (b : List Measurement) (m : ViewMap) (t c t' c' : Int),
    (runBatch now ⟨m, t, c⟩ b).existing = (runBatch now ⟨m, t', c'⟩ b).existing := by
  intro b
  induction b with
  | nil => intro m t c t' c'; rfl
  | cons v rest ih =>
    intro m t c t' c'
    rw [runBatch_cons, runBatch_cons]
    exact ih _ _ _ _ _

theorem runBatch_cum_eq_total (now : String) :
    ∀ (b : List Measurement) (st : RunState),
    (runBatch now st b).cumulative_total - st.cumulative_total =
      (runBatch now st b).total_new_views - st.total_new_views := by
  intro b
  induction b with
  | nil =>
    intro st
    show st.cumulative_total - st.cumulative_total =
      st.total_new_views - st.total_new_views
    omega
  | cons v rest ih =>
    intro st
    rw [runBatch_cons]
    have h := ih (processVideo now st v)
    have hc : (processVideo now st v).cumulative_total =
        st.cumulative_total + deltaFor st.existing v := rfl
    have ht : (processVideo now st v).total_new_views =
        st.total_new_views + deltaFor st.existing v := rfl
    omega

theorem runBatch_cum_shift (now : String) :
    ∀ (b : List Measurement) (m : ViewMap) (t c t' c' : Int),
    (runBatch now ⟨m, t, c⟩ b).cumulative_total - c =
      (runBatch now ⟨m, t', c'⟩ b).cumulative_total - c' := by
  intro b
  induction b with
  | nil => intro m t c t' c'; simp [runBatch]
  | cons v rest ih =>
    intro m t c t' c'
    rw [runBatch_cons, runBatch_cons]
    have h := ih (dictInsert m v.video_id ⟨v.current_views, now⟩)
      (t + deltaFor m v) (c + deltaFor m v) (t' + deltaFor m v) (c' + deltaFor m v)
    have hp : ∀ t0 c0 : Int, processVideo now ⟨m, t0, c0⟩ v =
        ⟨dictInsert m v.video_id ⟨v.current_views, now⟩,
          t0 + deltaFor m v, c0 + deltaFor m v⟩ := fun t0 c0 => rfl
    rw [hp, hp]
    omega

theorem deltaFor_nonneg (m : ViewMap) (v : Measurement)
    (h : 0 ≤ v.current_views) : 0 ≤ deltaFor m v := by
  rw [deltaFor]
  cases dictGet? m v.video_id with
  | none => exact h
  | some e => exact le_max_left 0 _

theorem runBatch_mono (now : String) : ∀ (b : List Measurement) (st : RunState),
    (∀ v ∈ b, 0 ≤ v.current_views) →
    st.total_new_views ≤ (runBatch now st b).total_new_views ∧
    st.cumulative_total ≤ (runBatch now st b).cumulative_total := by
  intro b
  induction b with
  | nil => intro st _; exact ⟨le_refl _, le_refl _⟩
  | cons v rest ih =>
    intro st h
    have hd : 0 ≤ deltaFor st.existing v :=
      deltaFor_nonneg _ _ (h v (List.mem_cons_self v rest))
    have hrest := ih (processVideo now st v) (fun w hw => h w (List.mem_cons_of_mem v hw))
    refine ⟨le_trans ?_ hrest.1, le_trans ?_ hrest.2⟩
    · show st.total_new_views ≤ st.total_new_views + deltaFor st.existing v
      omega
    · show st.cumulative_total ≤ st.cumulative_total + deltaFor st.existing v
      omega

theorem dictGet?_runBatch_not_mem (now : String) :
    ∀ (b : List Measurement) (st : RunState) (id : String),
    id ∉ b.map Measurement.video_id →
    dictGet? (runBatch now st b).existing id = dictGet? st.existing id := by
  intro b
  induction b with
  | nil => intro st id _; rfl
  | cons v rest ih =>
    intro st id h
    simp only [List.map_cons, List.mem_cons, not_or] at h
    have hstep : runBatch now st (v :: rest) = runBatch now (processVideo now st v) rest := rfl
    rw [hstep, ih (processVideo now st v) id (by simpa using h.2)]
    exact dictGet?_insert_ne _ _ _ _ h.1

theorem runBatch_keys_nodup (now : String) : ∀ (b : List Measurement) (st : RunState),
    (dictKeys st.existing).Nodup → (dictKeys (runBatch now st b).existing).Nodup := by
  intro b
  induction b with
  | nil => intro st h; exact h
  | cons v rest ih =>
    intro st h
    exact ih (processVideo now st v) (dictKeys_insert_nodup _ _ _ h)

theorem loadViewRecords_keys_nodup (rows : List ViewRow) :
    (dictKeys (loadViewRecords rows)).Nodup := by
  suffices h : ∀ (rs : List ViewRow) (m : ViewMap), (dictKeys m).Nodup →
      (dictKeys (rs.foldl
        (fun m r => dictInsert m r.video_id ⟨r.last_views, r.last_checked⟩) m)).Nodup by
    exact h rows [] (by simp [dictKeys])
  intro rs
  induction rs with
  | nil => intro m h; exact h
  | cons r rest ih =>
    intro m h
    exact ih _ (dictKeys_insert_nodup _ _ _ h)

theorem foldl_insert_fresh : ∀ (m : ViewMap) (acc : ViewMap),
    (∀ p ∈ m, p.1 ∉ dictKeys acc) → (dictKeys m).Nodup →
    ((writeViewRows m).foldl
      (fun m r => dictInsert m r.video_id ⟨r.last_views, r.last_checked⟩) acc) = acc ++ m := by
  intro m
  induction m with
  | nil => intro acc _ _; simp [writeViewRows]
  | cons p rest ih =>
    intro acc hfresh hnodup
    obtain ⟨k, e⟩ := p
    have hk : k ∉ dictKeys acc := hfresh (k, e) (List.mem_cons_self _ _)
    have hstep : writeViewRows ((k, e) :: rest) =
        ViewRow.mk k e.last_views e.last_checked :: writeViewRows rest := rfl
    rw [hstep, List.foldl_cons]
    have hins : dictInsert acc k ⟨e.last_views, e.last_checked⟩ = acc ++ [(k, e)] :=
      dictInsert_of_not_mem acc k e hk
    rw [hins, ih (acc ++ [(k, e)]) ?fresh ?nodup, List.append_assoc]
    · rfl
    case fresh =>
      intro q hq
      have hq1 : q.1 ∉ dictKeys acc := hfresh q (List.mem_cons_of_mem _ hq)
      have hq2 : q.1 ≠ k := by
        intro hx
        have : k ∈ dictKeys rest := by
          rw [← hx]
          exact List.mem_map_of_mem Prod.fst hq
        simp only [dictKeys, List.map_cons, List.nodup_cons] at hnodup
        exact hnodup.1 this
      have hkeys : dictKeys (acc ++ [(k, e)]) = dictKeys acc ++ [k] := by
        simp [dictKeys]
      rw [hkeys]
      simp only [List.mem_append, List.mem_singleton, not_or]
      exact ⟨hq1, hq2⟩
    case nodup =>
      simp only [dictKeys, List.map_cons, List.nodup_cons] at hnodup
      exact hnodup.2

/-- Re-reading the rows the reconciler wrote reconstructs the dict exactly,
as long as its keys are unique (which the run always guarantees). -/
theorem loadViewRecords_writeViewRows (m : ViewMap) (h : (dictKeys m).Nodup) :
    loadViewRecords (writeViewRows m) = m := by
  rw [loadViewRecords, foldl_insert_fresh m [] (by simp [dictKeys]) h]
  simp

theorem loadViewRecords_append_singleton (rows : List ViewRow) (r : ViewRow) :
    loadViewRecords (rows ++ [r]) =
      dictInsert (loadViewRecords rows) r.video_id ⟨r.last_views, r.last_checked⟩ := by
  rw [loadViewRecords, loadViewRecords, List.foldl_append]
  rfl

/-- Duplicate ids among the rows read at run start: the last row read wins. -/
theorem loadViewRecords_last_wins (rows : List ViewRow) (id : String) :
    dictGet? (loadViewRecords rows) id =
      ((rows.reverse.find? (fun r => r.video_id == id)).map
        (fun r => ViewEntry.mk r.last_views r.last_checked)) := by
  induction rows using List.reverseRecOn with
  | nil => rfl
  | append_singleton rows r ih =>
    rw [loadViewRecords_append_singleton, List.reverse_append, List.reverse_singleton]
    by_cases hid : r.video_id = id
    · rw [hid, dictGet?_insert_self]
      simp [List.find?, hid]
    · rw [dictGet?_insert_ne _ _ _ _ (fun h => hid h.symm), ih]
      have : (r.video_id == id) = false := by simp [hid]
      simp [List.find?, this]

theorem fetchAux_irrel (api : List String → List ApiVideoItem) :
    ∀ (k : Nat) (ids : List String) (fuel fuel' : Nat), ids.length ≤ k →
    ids.length ≤ fuel → ids.length ≤ fuel' →
    fetchAux api fuel ids = fetchAux api fuel' ids := by
  intro k
  induction k with
  | zero =>
    intro ids fuel fuel' hk _ _
    have : ids = [] := List.length_eq_zero.mp (by omega)
    subst this
    cases fuel <;> cases fuel' <;> rfl
  | succ k ih =>
    intro ids fuel fuel' hk hf hf'
    cases ids with
    | nil => cases fuel <;> cases fuel' <;> rfl
    | cons x rest =>
      match fuel, fuel', hf, hf' with
      | f + 1, f' + 1, hf, hf' =>
        show ((api ((x :: rest).take 50)).map statOf) ++ fetchAux api f ((x :: rest).drop 50) =
          ((api ((x :: rest).take 50)).map statOf) ++ fetchAux api f' ((x :: rest).drop 50)
        have hd : ((x :: rest).drop 50).length = (x :: rest).length - 50 := by
          simp [List.length_drop]
        have hlen : (x :: rest).length = rest.length + 1 := by simp
        rw [ih ((x :: rest).drop 50) f f' (by omega) (by omega) (by omega)]

/-- Unfolding equation of the slicing loop. -/
theorem fetch_current_views_cons (api : List String → List ApiVideoItem)
    (x : String) (rest : List String) :
    fetch_current_views api (x :: rest) =
      ((api ((x :: rest).take 50)).map statOf) ++
        fetch_current_views api ((x :: rest).drop 50) := by
  have hd : ((x :: rest).drop 50).length = (x :: rest).length - 50 := by
    simp [List.length_drop]
  have hlen : (x :: rest).length = rest.length + 1 := by simp
  rw [fetch_current_views]
  show fetchAux api (rest.length + 1) (x :: rest) = _
  have hunf : fetchAux api (rest.length + 1) (x :: rest) =
      ((api ((x :: rest).take 50)).map statOf) ++
        fetchAux api rest.length ((x :: rest).drop 50) := rfl
  rw [hunf, fetch_current_views,
    fetchAux_irrel api ((x :: rest).drop 50).length ((x :: rest).drop 50)
      rest.length ((x :: rest).drop 50).length (le_refl _) (by omega) (le_refl _)]

theorem chunks50Aux_irrel :
    ∀ (k : Nat) (ids : List String) (fuel fuel' : Nat), ids.length ≤ k →
    ids.length ≤ fuel → ids.length ≤ fuel' →
    chunks50Aux fuel ids = chunks50Aux fuel' ids := by
  intro k
  induction k with
  | zero =>
    intro ids fuel fuel' hk _ _
    have : ids = [] := List.length_eq_zero.mp (by omega)
    subst this
    cases fuel <;> cases fuel' <;> rfl
  | succ k ih =>
    intro ids fuel fuel' hk hf hf'
    cases ids with
    | nil => cases fuel <;> cases fuel' <;> rfl
    | cons x rest =>
      match fuel, fuel', hf, hf' with
      | f + 1, f' + 1, hf, hf' =>
        show (x :: rest).take 50 :: chunks50Aux f ((x :: rest).drop 50) =
          (x :: rest).take 50 :: chunks50Aux f' ((x :: rest).drop 50)
        have hd : ((x :: rest).drop 50).length = (x :: rest).length - 50 := by
          simp [List.length_drop]
        have hlen : (x :: rest).length = rest.length + 1 := by simp
        rw [ih ((x :: rest).drop 50) f f' (by omega) (by omega) (by omega)]

/-- Unfolding equation of the spec-side chunking. -/
theorem chunks50_cons (x : String) (rest : List String) :
    chunks50 (x :: rest) = (x :: rest).take 50 :: chunks50 ((x :: rest).drop 50) := by
  have hd : ((x :: rest).drop 50).length = (x :: rest).length - 50 := by
    simp [List.length_drop]
  have hlen : (x :: rest).length = rest.length + 1 := by simp
  rw [chunks50]
  show chunks50Aux (rest.length + 1) (x :: rest) = _
  have hunf : chunks50Aux (rest.length + 1) (x :: rest) =
      (x :: rest).take 50 :: chunks50Aux rest.length ((x :: rest).drop 50) := rfl
  rw [hunf, chunks50,
    chunks50Aux_irrel ((x :: rest).drop 50).length ((x :: rest).drop 50)
      rest.length ((x :: rest).drop 50).length (le_refl _) (by omega) (le_refl _)]

theorem c8_aux (api : List String → List ApiVideoItem) :
    ∀ (n : Nat) (ids : List String), ids.length ≤ n →
    fetch_current_views api ids = ((chunks50 ids).map (chunkStats api)).flatten ∧
    (∀ c ∈ chunks50 ids, c.length ≤ 50 ∧ c ≠ []) ∧
    (chunks50 ids).flatten = ids := by
  intro n
  induction n with
  | zero =>
    intro ids h
    have : ids = [] := List.length_eq_zero.mp (by omega)
    subst this
    refine ⟨rfl, ?_, rfl⟩
    intro c hc
    exact absurd hc (by simp [chunks50, chunks50Aux])
  | succ f ih =>
    intro ids h
    cases ids with
    | nil =>
      refine ⟨rfl, ?_, rfl⟩
      intro c hc
      exact absurd hc (by simp [chunks50, chunks50Aux])
    | cons x rest =>
      have hlen : ((x :: rest).drop 50).length ≤ f := by
        simp only [List.length_drop, List.length_cons] at *
        omega
      obtain ⟨ih1, ih2, ih3⟩ := ih ((x :: rest).drop 50) hlen
      refine ⟨?_, ?_, ?_⟩
      · rw [fetch_current_views_cons, chunks50_cons, List.map_cons, List.flatten_cons, ih1]
        rfl
      · rw [chunks50_cons]
        intro c hc
        rcases List.mem_cons.mp hc with rfl | hc2
        · constructor
          · rw [List.length_take]
            exact min_le_left _ _
          · have : (x :: rest).take 50 = x :: rest.take 49 := rfl
            rw [this]
            exact List.cons_ne_nil _ _
        · exact ih2 c hc2
      · rw [chunks50_cons, List.flatten_cons, ih3]
        exact List.take_append_drop 50 (x :: rest)

/-- C1: for every measurement of the batch, in batch order, the reconciler
adds the per-item delta (`max(0, current − stored last_views)` when the id is
in the mapping, the full `current_views` otherwise) to both the run's
total-new-views and the cumulative total, and upserts the mapping entry to
`(current_views, now)`. -/
theorem c1_per_item_delta_step (now : String) (fs : FileState)
    (batch : List Measurement) (i : Nat) (h : i < batch.length) :
    runBatch now ⟨loadViewRecords (fs.allviews.getD []), 0, loadCumulativeTotal fs.sumtotal⟩
        (batch.take (i + 1)) =
      ⟨dictInsert (runBatch now ⟨loadViewRecords (fs.allviews.getD []), 0,
            loadCumulativeTotal fs.sumtotal⟩ (batch.take i)).existing
          (batch.get ⟨i, h⟩).video_id ⟨(batch.get ⟨i, h⟩).current_views, now⟩,
        (runBatch now ⟨loadViewRecords (fs.allviews.getD []), 0,
            loadCumulativeTotal fs.sumtotal⟩ (batch.take i)).total_new_views +
          deltaFor (runBatch now ⟨loadViewRecords (fs.allviews.getD []), 0,
            loadCumulativeTotal fs.sumtotal⟩ (batch.take i)).existing (batch.get ⟨i, h⟩),
        (runBatch now ⟨loadViewRecords (fs.allviews.getD []), 0,
            loadCumulativeTotal fs.sumtotal⟩ (batch.take i)).cumulative_total +
          deltaFor (runBatch now ⟨loadViewRecords (fs.allviews.getD []), 0,
            loadCumulativeTotal fs.sumtotal⟩ (batch.take i)).existing (batch.get ⟨i, h⟩)⟩ := by
  have htake : batch.take (i + 1) = batch.take i ++ [batch.get ⟨i, h⟩] := by
    rw [List.take_succ, List.getElem?_eq_getElem h]
    rfl
  rw [htake, runBatch_append]
  rfl

theorem c1_per_item_delta_step_witness :
    runBatch "t" ⟨[], 0, 0⟩ ([⟨"A", 100⟩] : List Measurement) =
      ⟨[("A", ⟨100, "t"⟩)], 100, 100⟩ := by
  have h := c1_per_item_delta_step "t" ⟨none, none⟩ [⟨"A", 100⟩] 0 (by decide)
  exact h.trans (by decide)

/-- C4: a ViewRecord row whose id is absent from the run's fetch batch is
carried into the rewritten table with `last_views` and `last_checked`
unchanged. -/
theorem c4_stale_rows_preserved (now : String) (fs : FileState)
    (batch : List Measurement) (id : String) (e : ViewEntry)
    (hid : dictGet? (loadViewRecords (fs.allviews.getD [])) id = some e)
    (hnot : id ∉ batch.map Measurement.video_id) :
    ViewRow.mk id e.last_views e.last_checked ∈
      ((update_allvideoviews now fs batch).1.allviews.getD []) := by
  have hpres := dictGet?_runBatch_not_mem now batch
    ⟨loadViewRecords (fs.allviews.getD []), 0, loadCumulativeTotal fs.sumtotal⟩ id hnot
  rw [hid] at hpres
  have hmem := mem_of_dictGet?_eq_some _ _ _ hpres
  have hrows : (update_allvideoviews now fs batch).1.allviews.getD [] =
      writeViewRows (runBatch now ⟨loadViewRecords (fs.allviews.getD []), 0,
        loadCumulativeTotal fs.sumtotal⟩ batch).existing := rfl
  rw [hrows]
  exact List.mem_map_of_mem _ hmem

theorem c4_stale_rows_preserved_witness :
    ViewRow.mk "A" 100 "t0" ∈
      ((update_allvideoviews "t1" ⟨some [⟨"A", 100, "t0"⟩], some "100"⟩
        [⟨"B", 5⟩]).1.allviews.getD []) := by
  have h := c4_stale_rows_preserved "t1" ⟨some [⟨"A", 100, "t0"⟩], some "100"⟩
    [⟨"B", 5⟩] "A" ⟨100, "t0"⟩ (by decide) (by decide)
  exact h

/-- C7: a missing `sumtotal.txt`, or content that `int` cannot parse, makes
the reconciler load the cumulative total as 0 and otherwise behave exactly
as if the file were absent. -/
theorem c7_malformed_total_loads_zero (s : String) (now : String)
    (rows : Option (List ViewRow)) (batch : List Measurement)
    (h : pyInt? s = none) :
    loadCumulativeTotal none = 0 ∧ loadCumulativeTotal (some s) = 0 ∧
    update_allvideoviews now ⟨rows, some s⟩ batch =
      update_allvideoviews now ⟨rows, none⟩ batch := by
  have hload : loadCumulativeTotal (some s) = 0 := by
    rw [loadCumulativeTotal, h]
  refine ⟨rfl, hload, ?_⟩
  simp only [update_allvideoviews]
  rw [show loadCumulativeTotal (some s) = loadCumulativeTotal none from hload]

theorem c7_malformed_total_loads_zero_witness :
    loadCumulativeTotal none = 0 ∧ loadCumulativeTotal (some "garbage") = 0 ∧
    update_allvideoviews "t" ⟨none, some "garbage"⟩ [⟨"A", 1⟩] =
      update_allvideoviews "t" ⟨none, none⟩ [⟨"A", 1⟩] :=
  c7_malformed_total_loads_zero "garbage" "t" none [⟨"A", 1⟩] (by decide)

/-- C8: the metric fetcher partitions the id list into consecutive chunks of
at most 50, issues one lookup per chunk, and flattens the per-chunk
responses (each item mapped to `{id, current_views}` with a missing count
defaulting to 0, as `chunkStats`/`statOf` state) in response order. -/
theorem c8_fetch_chunks_of_50 (api : List String → List ApiVideoItem)
    (video_ids : List String) :
    fetch_current_views api video_ids =
      ((chunks50 video_ids).map (chunkStats api)).flatten ∧
    (∀ c ∈ chunks50 video_ids, c.length ≤ 50 ∧ c ≠ []) ∧
    (chunks50 video_ids).flatten = video_ids :=
  c8_aux api video_ids.length video_ids (le_refl _)

theorem c8_fetch_chunks_of_50_witness :
    fetch_current_views (fun c => c.map (fun i => ApiVideoItem.mk i (some 7))) ["a", "b"] =
      ((chunks50 ["a", "b"]).map
        (chunkStats (fun c => c.map (fun i => ApiVideoItem.mk i (some 7))))).flatten ∧
    (∀ c ∈ chunks50 ["a", "b"], c.length ≤ 50 ∧ c ≠ []) ∧
    (chunks50 ["a", "b"]).flatten = ["a", "b"] :=
  c8_fetch_chunks_of_50 (fun c => c.map (fun i => ApiVideoItem.mk i (some 7))) ["a", "b"]

/-- C9: a repeated id inside one batch is processed sequentially against the
mapping being updated: the later occurrence's delta is relative to the views
just stored by the earlier occurrence (so an unchanged count adds 0 more),
and the final stored `last_views` is the last occurrence's value. -/
theorem c9_duplicate_ids_processed_sequentially (now : String) (st : RunState)
    (pre mid : List Measurement) (id : String) (cv cv' : Int)
    (hmid : id ∉ mid.map Measurement.video_id) :
    (runBatch now st (pre ++ ⟨id, cv⟩ :: mid ++ [⟨id, cv'⟩])).cumulative_total =
      (runBatch now st (pre ++ ⟨id, cv⟩ :: mid)).cumulative_total + max 0 (cv' - cv) ∧
    (runBatch now st (pre ++ ⟨id, cv⟩ :: mid ++ [⟨id, cv'⟩])).total_new_views =
      (runBatch now st (pre ++ ⟨id, cv⟩ :: mid)).total_new_views + max 0 (cv' - cv) ∧
    dictGet? (runBatch now st (pre ++ ⟨id, cv⟩ :: mid ++ [⟨id, cv'⟩])).existing id =
      some ⟨cv', now⟩ := by
  have hsplit : pre ++ ⟨id, cv⟩ :: mid ++ [(⟨id, cv'⟩ : Measurement)] =
      (pre ++ ⟨id, cv⟩ :: mid) ++ [⟨id, cv'⟩] := by
    simp
  have hlook : dictGet? (runBatch now st (pre ++ ⟨id, cv⟩ :: mid)).existing id =
      some ⟨cv, now⟩ := by
    have h2 : pre ++ (⟨id, cv⟩ : Measurement) :: mid = (pre ++ [⟨id, cv⟩]) ++ mid := by
      simp
    rw [h2, runBatch_append,
      dictGet?_runBatch_not_mem now mid _ id (by simpa using hmid),
      runBatch_append]
    show dictGet? (processVideo now (runBatch now st pre) ⟨id, cv⟩).existing id = _
    exact dictGet?_insert_self _ _ _
  have hd : deltaFor (runBatch now st (pre ++ ⟨id, cv⟩ :: mid)).existing ⟨id, cv'⟩ =
      max 0 (cv' - cv) := by
    rw [deltaFor]
    show (match dictGet? (runBatch now st (pre ++ ⟨id, cv⟩ :: mid)).existing id with
      | some e => max 0 (cv' - e.last_views)
      | none => cv') = max 0 (cv' - cv)
    rw [hlook]
  rw [hsplit, runBatch_append]
  refine ⟨?_, ?_, ?_⟩
  · show (runBatch now st (pre ++ ⟨id, cv⟩ :: mid)).cumulative_total +
      deltaFor (runBatch now st (pre ++ ⟨id, cv⟩ :: mid)).existing ⟨id, cv'⟩ = _
    rw [hd]
  · show (runBatch now st (pre ++ ⟨id, cv⟩ :: mid)).total_new_views +
      deltaFor (runBatch now st (pre ++ ⟨id, cv⟩ :: mid)).existing ⟨id, cv'⟩ = _
    rw [hd]
  · show dictGet? (dictInsert (runBatch now st (pre ++ ⟨id, cv⟩ :: mid)).existing
      id ⟨cv', now⟩) id = some ⟨cv', now⟩
    exact dictGet?_insert_self _ _ _

theorem c9_duplicate_ids_processed_sequentially_witness :
    (runBatch "t" ⟨[], 0, 0⟩ ([] ++ ⟨"A", 5⟩ :: [⟨"B", 3⟩] ++ [⟨"A", 5⟩])).cumulative_total =
      (runBatch "t" ⟨[], 0, 0⟩ ([] ++ ⟨"A", 5⟩ :: [⟨"B", 3⟩])).cumulative_total +
        max 0 (5 - 5 : Int) ∧
    (runBatch "t" ⟨[], 0, 0⟩ ([] ++ ⟨"A", 5⟩ :: [⟨"B", 3⟩] ++ [⟨"A", 5⟩])).total_new_views =
      (runBatch "t" ⟨[], 0, 0⟩ ([] ++ ⟨"A", 5⟩ :: [⟨"B", 3⟩])).total_new_views +
        max 0 (5 - 5 : Int) ∧
    dictGet? (runBatch "t" ⟨[], 0, 0⟩
        ([] ++ ⟨"A", 5⟩ :: [⟨"B", 3⟩] ++ [⟨"A", 5⟩])).existing "A" = some ⟨5, "t"⟩ :=
  c9_duplicate_ids_processed_sequentially "t" ⟨[], 0, 0⟩ [] [⟨"B", 3⟩] "A" 5 5 (by decide)

/-- C10: the rewritten ViewRecord table has exactly one row per id — its id
column is duplicate-free — and when the table read at run start has several
rows for an id, the last row read wins in the loaded mapping. -/
theorem c10_rewritten_table_duplicate_free (now : String) (fs : FileState)
    (batch : List Measurement) :
    ((((update_allvideoviews now fs batch).1.allviews.getD []).map ViewRow.video_id).Nodup) ∧
    ∀ id : String, dictGet? (loadViewRecords (fs.allviews.getD [])) id =
      (((fs.allviews.getD []).reverse.find? (fun r => r.video_id == id)).map
        (fun r => ViewEntry.mk r.last_views r.last_checked)) := by
  constructor
  · have hrows : (update_allvideoviews now fs batch).1.allviews.getD [] =
        writeViewRows (runBatch now ⟨loadViewRecords (fs.allviews.getD []), 0,
          loadCumulativeTotal fs.sumtotal⟩ batch).existing := rfl
    have hkeys : ∀ m : ViewMap, (writeViewRows m).map ViewRow.video_id = dictKeys m := by
      intro m
      rw [writeViewRows, dictKeys, List.map_map]
      rfl
    rw [hrows, hkeys]
    exact runBatch_keys_nodup now batch _ (loadViewRecords_keys_nodup _)
  · intro id
    exact loadViewRecords_last_wins _ id

/-- C3: the persisted cumulative total never decreases in a run (the written
value is at least the loaded one), and it stays non-negative, even when
individual items report fewer views than recorded. -/
theorem c3_cumulative_monotone_nonneg (now : String) (fs : FileState)
    (batch : List Measurement) (h : ∀ v ∈ batch, 0 ≤ v.current_views) :
    loadCumulativeTotal fs.sumtotal ≤
      loadCumulativeTotal ((update_allvideoviews now fs batch).1.sumtotal) ∧
    (0 ≤ loadCumulativeTotal fs.sumtotal →
      0 ≤ loadCumulativeTotal ((update_allvideoviews now fs batch).1.sumtotal)) := by
  have hsum : (update_allvideoviews now fs batch).1.sumtotal =
      some (pyStr (runBatch now ⟨loadViewRecords (fs.allviews.getD []), 0,
        loadCumulativeTotal fs.sumtotal⟩ batch).cumulative_total) := rfl
  rw [hsum, loadCumulativeTotal_pyStr]
  have hm := runBatch_mono now batch
    ⟨loadViewRecords (fs.allviews.getD []), 0, loadCumulativeTotal fs.sumtotal⟩ h
  exact ⟨hm.2, fun h0 => le_trans h0 hm.2⟩

theorem c3_cumulative_monotone_nonneg_witness :
    loadCumulativeTotal (some "10") ≤
      loadCumulativeTotal ((update_allvideoviews "t" ⟨none, some "10"⟩ [⟨"A", 5⟩]).1.sumtotal) ∧
    (0 ≤ loadCumulativeTotal (some "10") →
      0 ≤ loadCumulativeTotal ((update_allvideoviews "t" ⟨none, some "10"⟩ [⟨"A", 5⟩]).1.sumtotal)) :=
  c3_cumulative_monotone_nonneg "t" ⟨none, some "10"⟩ [⟨"A", 5⟩] (by decide)

theorem runBatch_no_change (now : String) : ∀ (b : List Measurement) (m : ViewMap) (t c : Int),
    (∀ v ∈ b, (dictGet? m v.video_id).map ViewEntry.last_views = some v.current_views) →
    (runBatch now ⟨m, t, c⟩ b).total_new_views = t ∧
    (runBatch now ⟨m, t, c⟩ b).cumulative_total = c := by
  intro b
  induction b with
  | nil => intro m t c _; exact ⟨rfl, rfl⟩
  | cons v rest ih =>
    intro m t c h
    have hv := h v (List.mem_cons_self v rest)
    obtain ⟨e, he, helv⟩ := Option.map_eq_some'.mp hv
    have hdelta : deltaFor m v = 0 := by
      simp [deltaFor, he, helv]
    rw [runBatch_cons]
    have hp : processVideo now ⟨m, t, c⟩ v =
        ⟨dictInsert m v.video_id ⟨v.current_views, now⟩,
          t + deltaFor m v, c + deltaFor m v⟩ := rfl
    rw [hp, hdelta, add_zero, add_zero]
    apply ih
    intro w hw
    by_cases hwid : w.video_id = v.video_id
    · rw [hwid, dictGet?_insert_self]
      have hw' := h w (List.mem_cons_of_mem v hw)
      rw [hwid, he] at hw'
      simp only [Option.map_some', Option.some.injEq] at hw'
      show some v.current_views = some w.current_views
      rw [← hw', helv]
    · rw [dictGet?_insert_ne _ _ _ _ hwid]
      exact h w (List.mem_cons_of_mem v hw)

/-- C5: a second run whose batch repeats, for every id, exactly the views
stored by the first run reports 0 new views and leaves the persisted
cumulative total unchanged. -/
theorem c5_identical_counts_idempotent (now1 now2 : String) (fs : FileState)
    (b1 b2 : List Measurement)
    (h : ∀ v ∈ b2,
      (dictGet? (loadViewRecords (((update_allvideoviews now1 fs b1).1.allviews).getD []))
        v.video_id).map ViewEntry.last_views = some v.current_views) :
    (update_allvideoviews now2 (update_allvideoviews now1 fs b1).1 b2).2.1 = 0 ∧
    loadCumulativeTotal
        ((update_allvideoviews now2 (update_allvideoviews now1 fs b1).1 b2).1.sumtotal) =
      loadCumulativeTotal ((update_allvideoviews now1 fs b1).1.sumtotal) := by
  have hm := runBatch_no_change now2 b2
    (loadViewRecords (((update_allvideoviews now1 fs b1).1.allviews).getD []))
    0 (loadCumulativeTotal ((update_allvideoviews now1 fs b1).1.sumtotal)) h
  constructor
  · exact hm.1
  · have hsum : (update_allvideoviews now2 (update_allvideoviews now1 fs b1).1 b2).1.sumtotal =
        some (pyStr ((runBatch now2
          ⟨loadViewRecords (((update_allvideoviews now1 fs b1).1.allviews).getD []), 0,
            loadCumulativeTotal ((update_allvideoviews now1 fs b1).1.sumtotal)⟩
          b2).cumulative_total)) := rfl
    rw [hsum, loadCumulativeTotal_pyStr, hm.2]

theorem c5_identical_counts_idempotent_witness :
    (update_allvideoviews "t2" (update_allvideoviews "t1" ⟨none, none⟩ [⟨"A", 100⟩]).1
      [⟨"A", 100⟩]).2.1 = 0 ∧
    loadCumulativeTotal ((update_allvideoviews "t2"
        (update_allvideoviews "t1" ⟨none, none⟩ [⟨"A", 100⟩]).1 [⟨"A", 100⟩]).1.sumtotal) =
      loadCumulativeTotal ((update_allvideoviews "t1" ⟨none, none⟩ [⟨"A", 100⟩]).1.sumtotal) :=
  c5_identical_counts_idempotent "t1" "t2" ⟨none, none⟩ [⟨"A", 100⟩] [⟨"A", 100⟩] (by decide)

theorem save_videos_csv_nodup (file videos : List CatRow)
    (hf : (file.map CatRow.video_id).Nodup) (hv : (videos.map CatRow.video_id).Nodup) :
    ((save_videos_csv (some file) videos).map CatRow.video_id).Nodup := by
  show ((file ++ videos.filter
    (fun v => !((file.map CatRow.video_id).contains v.video_id))).map CatRow.video_id).Nodup
  rw [List.map_append, List.nodup_append]
  refine ⟨hf, ?_, ?_⟩
  · exact hv.sublist ((List.filter_sublist videos).map CatRow.video_id)
  · intro a ha hb
    obtain ⟨v, hvmem, hvid⟩ := List.mem_map.mp hb
    have hpred := List.of_mem_filter hvmem
    simp only [Bool.not_eq_true'] at hpred
    rw [hvid] at hpred
    have hnot : a ∉ file.map CatRow.video_id := by simpa using hpred
    exact hnot ha

theorem catalogAfter_nodup : ∀ (batches : List (List CatRow)) (fs : Option (List CatRow)),
    ((fs.getD []).map CatRow.video_id).Nodup →
    (∀ b ∈ batches, (b.map CatRow.video_id).Nodup) →
    ((catalogAfter fs batches).map CatRow.video_id).Nodup := by
  intro batches
  induction batches with
  | nil => intro fs h _; exact h
  | cons b bs ih =>
    intro fs h hb
    apply ih
    · exact save_videos_csv_nodup (fs.getD []) b h (hb b (List.mem_cons_self b bs))
    · intro b' hb'
      exact hb b' (List.mem_cons_of_mem b hb')

/-- C6, counterexample to the claim as stated: one `save_videos_csv` call
whose input list repeats an id appends two rows with the same id, because
the known-id set is read once and not extended inside the append loop. -/
theorem c6_duplicate_within_call_counterexample :
    ¬ ((save_videos_csv none [⟨"A", "t1", "p1"⟩, ⟨"A", "t2", "p2"⟩]).map
        CatRow.video_id).Nodup := by
  decide

/-- C6, amended: provided each call's discovered list has pairwise-distinct
ids, the catalog never contains two rows with the same id; moreover every
call keeps the previously stored rows unchanged as a prefix and appends only
rows whose id was not yet present. -/
theorem c6_catalog_unique_ids_amended (batches : List (List CatRow))
    (file videos : List CatRow)
    (h : ∀ b ∈ batches, (b.map CatRow.video_id).Nodup) :
    ((catalogAfter none batches).map CatRow.video_id).Nodup ∧
    (save_videos_csv (some file) videos).take file.length = file ∧
    ∀ r ∈ (save_videos_csv (some file) videos).drop file.length,
      r.video_id ∉ file.map CatRow.video_id := by
  refine ⟨catalogAfter_nodup batches none (by simp) h, ?_, ?_⟩
  · show ((file ++ videos.filter
      (fun v => !((file.map CatRow.video_id).contains v.video_id))).take file.length) = file
    exact List.take_left file _
  · show ∀ r ∈ (file ++ videos.filter
      (fun v => !((file.map CatRow.video_id).contains v.video_id))).drop file.length, _
    rw [List.drop_left]
    intro r hr
    have hpred := List.of_mem_filter hr
    simpa using hpred

theorem c6_catalog_unique_ids_amended_witness :
    ((catalogAfter none [[⟨"A", "tA", "pA"⟩], [⟨"A", "tA", "pA"⟩, ⟨"B", "tB", "pB"⟩]]).map
      CatRow.video_id).Nodup ∧
    (save_videos_csv (some [⟨"A", "tA", "pA"⟩])
      [⟨"A", "tA2", "pA2"⟩, ⟨"B", "tB", "pB"⟩]).take
        ([(⟨"A", "tA", "pA"⟩ : CatRow)]).length = [⟨"A", "tA", "pA"⟩] ∧
    ∀ r ∈ (save_videos_csv (some [⟨"A", "tA", "pA"⟩])
      [⟨"A", "tA2", "pA2"⟩, ⟨"B", "tB", "pB"⟩]).drop
        ([(⟨"A", "tA", "pA"⟩ : CatRow)]).length,
      r.video_id ∉ ([(⟨"A", "tA", "pA"⟩ : CatRow)]).map CatRow.video_id :=
  c6_catalog_unique_ids_amended [[⟨"A", "tA", "pA"⟩], [⟨"A", "tA", "pA"⟩, ⟨"B", "tB", "pB"⟩]]
    [⟨"A", "tA", "pA"⟩] [⟨"A", "tA2", "pA2"⟩, ⟨"B", "tB", "pB"⟩] (by decide)

theorem specLookup_record_self (r : List (String × Int)) (id : String) (n : Int) :
    specLookup (specRecord r id n) id = some n := by
  induction r with
  | nil => simp [specRecord, specLookup, List.find?]
  | cons p rest ih =>
    rw [specRecord]
    split
    · simp [specLookup, List.find?]
    · next hne =>
      rw [specLookup, List.find?]
      have : (p.1 == id) = false := by simp [hne]
      rw [this]
      exact ih

theorem specLookup_record_ne (r : List (String × Int)) (id id' : String) (n : Int)
    (hne : id' ≠ id) : specLookup (specRecord r id n) id' = specLookup r id' := by
  induction r with
  | nil =>
    simp only [specRecord, specLookup, List.find?]
    have : (id == id') = false := by simp [Ne.symm hne]
    simp [this]
  | cons p rest ih =>
    rw [specRecord]
    split
    · next heq =>
      simp only [specLookup, List.find?]
      have h1 : (id == id') = false := by simp [Ne.symm hne]
      have h2 : (p.1 == id') = false := by simp [heq, Ne.symm hne]
      rw [h1, h2]
    · next hne2 =>
      simp only [specLookup, List.find?]
      cases hpk : (p.1 == id') with
      | true => rfl
      | false => exact ih

theorem deltaFor_spec (m : ViewMap) (r : List (String × Int)) (v : Measurement)
    (h : (dictGet? m v.video_id).map ViewEntry.last_views = specLookup r v.video_id) :
    deltaFor m v = specDelta r v := by
  cases hm : dictGet? m v.video_id with
  | none =>
    rw [hm] at h
    simp only [Option.map_none'] at h
    rw [deltaFor, hm, specDelta, ← h]
  | some e =>
    rw [hm] at h
    simp only [Option.map_some'] at h
    rw [deltaFor, hm, specDelta, ← h]

theorem insert_spec_corr (now : String) (m : ViewMap) (r : List (String × Int))
    (id : String) (cv : Int)
    (h : ∀ x, (dictGet? m x).map ViewEntry.last_views = specLookup r x) :
    ∀ x, (dictGet? (dictInsert m id ⟨cv, now⟩) x).map ViewEntry.last_views =
      specLookup (specRecord r id cv) x := by
  intro x
  by_cases hx : x = id
  · subst hx
    rw [dictGet?_insert_self, specLookup_record_self]
    rfl
  · rw [dictGet?_insert_ne _ _ _ _ hx, specLookup_record_ne _ _ _ _ hx]
    exact h x

theorem runBatch_spec_corr (now : String) : ∀ (b : List Measurement) (m : ViewMap)
    (r : List (String × Int)) (t c s : Int),
    (∀ x, (dictGet? m x).map ViewEntry.last_views = specLookup r x) →
    (runBatch now ⟨m, t, c⟩ b).cumulative_total - c = (b.foldl specStep (r, s)).2 - s ∧
    (∀ x, (dictGet? (runBatch now ⟨m, t, c⟩ b).existing x).map ViewEntry.last_views =
      specLookup (b.foldl specStep (r, s)).1 x) := by
  intro b
  induction b with
  | nil =>
    intro m r t c s h
    refine ⟨?_, h⟩
    show c - c = s - s
    omega
  | cons v rest ih =>
    intro m r t c s h
    rw [runBatch_cons]
    have hp : processVideo now ⟨m, t, c⟩ v =
        ⟨dictInsert m v.video_id ⟨v.current_views, now⟩,
          t + deltaFor m v, c + deltaFor m v⟩ := rfl
    have hs : (v :: rest).foldl specStep (r, s) =
        rest.foldl specStep (specRecord r v.video_id v.current_views, s + specDelta r v) := rfl
    rw [hp, hs]
    have hd : deltaFor m v = specDelta r v := deltaFor_spec m r v (h v.video_id)
    have hcorr := insert_spec_corr now m r v.video_id v.current_views h
    have hih := ih (dictInsert m v.video_id ⟨v.current_views, now⟩)
      (specRecord r v.video_id v.current_views)
      (t + deltaFor m v) (c + deltaFor m v) (s + specDelta r v) hcorr
    refine ⟨?_, hih.2⟩
    have h1 := hih.1
    omega

theorem runs_spec_corr : ∀ (seq : List (String × List Measurement)) (fs : FileState)
    (r : List (String × Int)) (s : Int),
    (∀ x, (dictGet? (loadViewRecords (fs.allviews.getD [])) x).map ViewEntry.last_views =
      specLookup r x) →
    loadCumulativeTotal fs.sumtotal = s →
    loadCumulativeTotal (runsFrom fs seq).sumtotal =
      ((seq.map Prod.snd).foldl (fun st b => b.foldl specStep st) (r, s)).2 ∧
    (∀ x, (dictGet? (loadViewRecords ((runsFrom fs seq).allviews.getD [])) x).map
        ViewEntry.last_views =
      specLookup ((seq.map Prod.snd).foldl (fun st b => b.foldl specStep st) (r, s)).1 x) := by
  intro seq
  induction seq with
  | nil =>
    intro fs r s hrel hsum
    exact ⟨hsum, hrel⟩
  | cons p rest ih =>
    intro fs r s hrel hsum
    subst hsum
    obtain ⟨now, b⟩ := p
    have hcorr := runBatch_spec_corr now b (loadViewRecords (fs.allviews.getD [])) r 0
      (loadCumulativeTotal fs.sumtotal) (loadCumulativeTotal fs.sumtotal) hrel
    have hrun : runsFrom fs ((now, b) :: rest) =
        runsFrom (update_allvideoviews now fs b).1 rest := rfl
    have hspec : (((now, b) :: rest).map Prod.snd).foldl
          (fun st b => b.foldl specStep st) (r, loadCumulativeTotal fs.sumtotal) =
        (rest.map Prod.snd).foldl (fun st b => b.foldl specStep st)
          (b.foldl specStep (r, loadCumulativeTotal fs.sumtotal)) := rfl
    rw [hrun, hspec]
    apply ih (update_allvideoviews now fs b).1
      (b.foldl specStep (r, loadCumulativeTotal fs.sumtotal)).1
      (b.foldl specStep (r, loadCumulativeTotal fs.sumtotal)).2
    · have hload : loadViewRecords ((update_allvideoviews now fs b).1.allviews.getD []) =
          (runBatch now ⟨loadViewRecords (fs.allviews.getD []), 0,
            loadCumulativeTotal fs.sumtotal⟩ b).existing := by
        have hrows : (update_allvideoviews now fs b).1.allviews.getD [] =
            writeViewRows (runBatch now ⟨loadViewRecords (fs.allviews.getD []), 0,
              loadCumulativeTotal fs.sumtotal⟩ b).existing := rfl
        rw [hrows]
        exact loadViewRecords_writeViewRows _
          (runBatch_keys_nodup now b _ (loadViewRecords_keys_nodup _))
      intro x
      rw [hload]
      exact hcorr.2 x
    · have hsum2 : loadCumulativeTotal (update_allvideoviews now fs b).1.sumtotal =
          (runBatch now ⟨loadViewRecords (fs.allviews.getD []), 0,
            loadCumulativeTotal fs.sumtotal⟩ b).cumulative_total := by
        have hw : (update_allvideoviews now fs b).1.sumtotal =
            some (pyStr ((runBatch now ⟨loadViewRecords (fs.allviews.getD []), 0,
              loadCumulativeTotal fs.sumtotal⟩ b).cumulative_total)) := rfl
        rw [hw, loadCumulativeTotal_pyStr]
      rw [hsum2]
      have h1 := hcorr.1
      omega

/-- C2: starting from no persisted state, the cumulative total persisted
after any sequence of reconciler runs equals the spec's sum of all per-item
`max(0, current − previously recorded)` deltas across all runs, first
observations counting in full. -/
theorem c2_cumulative_equals_spec_sum (seq : List (String × List Measurement)) :
    loadCumulativeTotal (runsFrom ⟨none, none⟩ seq).sumtotal =
      specCumulative (seq.map Prod.snd) := by
  have h := runs_spec_corr seq ⟨none, none⟩ [] 0 (fun x => rfl) rfl
  exact h.1

end YtMeta
